import Mathlib

/-!
Verification development for the chat-export extraction utilities
(`src/utils.py`).  The Python functions operate on JSON-loaded data:
nested dictionaries, lists, strings, numbers, booleans and null.  We embed
that data as the inductive type `J` below and give the Python operations
the same semantics, with a raised exception modelled as `Option.none`
(an uncaught exception aborts the whole call, so no partial state is
observable except where the source catches it).
-/

/-- A JSON-loaded Python value: null, bool, int, string, list, or dict
(string-keyed, insertion ordered). -/
inductive J where
  | null : J
  | b : Bool → J
  | n : Int → J
  | s : String → J
  | arr : List J → J
  | obj : List (String × J) → J

mutual

/-- Decidable equality on `J` (the nested inductive blocks the derive
handler, so it is written out). -/
def decEqJ : (a b : J) → Decidable (a = b)
  | .null, .null => isTrue rfl
  | .b x, .b y =>
    match decEq x y with
    | isTrue h => isTrue (by rw [h])
    | isFalse h => isFalse (by intro he; cases he; exact h rfl)
  | .n x, .n y =>
    match decEq x y with
    | isTrue h => isTrue (by rw [h])
    | isFalse h => isFalse (by intro he; cases he; exact h rfl)
  | .s x, .s y =>
    match decEq x y with
    | isTrue h => isTrue (by rw [h])
    | isFalse h => isFalse (by intro he; cases he; exact h rfl)
  | .arr xs, .arr ys =>
    match decEqJList xs ys with
    | isTrue h => isTrue (by rw [h])
    | isFalse h => isFalse (by intro he; cases he; exact h rfl)
  | .obj xs, .obj ys =>
    match decEqJObj xs ys with
    | isTrue h => isTrue (by rw [h])
    | isFalse h => isFalse (by intro he; cases he; exact h rfl)
  | .null, .b _ | .null, .n _ | .null, .s _ | .null, .arr _ | .null, .obj _
  | .b _, .null | .b _, .n _ | .b _, .s _ | .b _, .arr _ | .b _, .obj _
  | .n _, .null | .n _, .b _ | .n _, .s _ | .n _, .arr _ | .n _, .obj _
  | .s _, .null | .s _, .b _ | .s _, .n _ | .s _, .arr _ | .s _, .obj _
  | .arr _, .null | .arr _, .b _ | .arr _, .n _ | .arr _, .s _ | .arr _, .obj _
  | .obj _, .null | .obj _, .b _ | .obj _, .n _ | .obj _, .s _ | .obj _, .arr _ =>
    isFalse (fun h => J.noConfusion h)

/-- Decidable equality on lists of `J`. -/
def decEqJList : (xs ys : List J) → Decidable (xs = ys)
  | [], [] => isTrue rfl
  | [], _ :: _ => isFalse (fun h => List.noConfusion h)
  | _ :: _, [] => isFalse (fun h => List.noConfusion h)
  | x :: xs, y :: ys =>
    match decEqJ x y with
    | isFalse h => isFalse (by intro he; cases he; exact h rfl)
    | isTrue h1 =>
      match decEqJList xs ys with
      | isTrue h2 => isTrue (by rw [h1, h2])
      | isFalse h => isFalse (by intro he; cases he; exact h rfl)

/-- Decidable equality on string-keyed association lists of `J`. -/
def decEqJObj : (xs ys : List (String × J)) → Decidable (xs = ys)
  | [], [] => isTrue rfl
  | [], _ :: _ => isFalse (fun h => List.noConfusion h)
  | _ :: _, [] => isFalse (fun h => List.noConfusion h)
  | (k, v) :: xs, (l, w) :: ys =>
    match decEq k l with
    | isFalse h => isFalse (by intro he; cases he; exact h rfl)
    | isTrue hk =>
      match decEqJ v w with
      | isFalse h => isFalse (by intro he; cases he; exact h rfl)
      | isTrue hv =>
        match decEqJObj xs ys with
        | isTrue ht => isTrue (by rw [hk, hv, ht])
        | isFalse h => isFalse (by intro he; cases he; exact h rfl)

end

instance : DecidableEq J := decEqJ

/-- Lookup in an insertion-ordered dictionary (first matching key). -/
def dictLookup {κ α : Type} [BEq κ] (m : List (κ × α)) (k : κ) : Option α :=
  (m.find? (fun p => p.1 == k)).map (fun p => p.2)

/-- Python dict item assignment: update the value in place if the key is
present, otherwise append the new pair at the end. -/
def dictSet {κ α : Type} [BEq κ] (m : List (κ × α)) (k : κ) (v : α) : List (κ × α) :=
  if m.any (fun p => p.1 == k) then
    m.map (fun p => if p.1 == k then (k, v) else p)
  else m ++ [(k, v)]

/-- Does the second character list start with the first one. -/
def charsLeadWith : List Char → List Char → Bool
  | [], _ => true
  | _ :: _, [] => false
  | a :: as, b :: bs => a == b && charsLeadWith as bs

/-- Does the second character list contain the first as a contiguous run. -/
def charsHaveRun (needle : List Char) : List Char → Bool
  | [] => charsLeadWith needle []
  | l@(_ :: t) => charsLeadWith needle l || charsHaveRun needle t

/-- Python substring containment `needle in hay` for strings. -/
def strIn (needle hay : String) : Bool :=
  charsHaveRun needle.data hay.data

/-- Python membership test `k in v` for a string key `k`: key lookup on a
dict, element equality on a list, substring test on a string; a
`TypeError` (modelled `none`) on null, bool and int. -/
def jContains (k : String) : J → Option Bool
  | .obj fs => some (fs.any (fun p => p.1 == k))
  | .arr xs => some (xs.any (fun x => x == J.s k))
  | .s t => some (strIn k t)
  | _ => none

/-- Python subscript `v[k]` for a string key `k`: dict lookup (KeyError
when absent) on a dict; a `TypeError` on every other value. -/
def jGet (k : String) : J → Option J
  | .obj fs => dictLookup fs k
  | _ => none

/-- Python iteration `for x in v`: the elements of a list, the keys of a
dict, the one-character strings of a string; `TypeError` otherwise. -/
def jIter : J → Option (List J)
  | .arr xs => some xs
  | .obj fs => some (fs.map (fun p => J.s p.1))
  | .s t => some (t.data.map (fun c => J.s (String.mk [c])))
  | _ => none

/-- Python item assignment `v[k] = x` for a string key: dict update on a
dict, `TypeError` on everything else. -/
def setKey (v : J) (k : String) (x : J) : Option J :=
  match v with
  | .obj fs => some (.obj (dictSet fs k x))
  | _ => none

/-- The column dictionary built by `get_messages_dict` (utils.py 85-98).
Each column is the list the Python code appends to.  The mention, emoji
and link columns only ever receive a freshly built Python list or `None`,
so they are typed `Option (List J)`; the remaining columns receive raw
message fields or `None`, both of which the JSON data model writes as
`J.null`, so they are typed `J`.  `link_count` receives nonnegative
machine integers. -/
structure MsgTable where
  msg_id : List J
  text : List J
  attachments : List J
  user : List J
  mentions : List (Option (List J))
  emojis : List (Option (List J))
  reactions : List J
  replies : List J
  replies_to : List J
  ts : List J
  links : List (Option (List J))
  link_count : List Nat
deriving DecidableEq

/-- The initial column dictionary of `get_messages_dict`: twelve empty
lists. -/
def emptyMsgTable : MsgTable :=
  ⟨[], [], [], [], [], [], [], [], [], [], [], []⟩

/-- The four accumulators of the layout-block walk
(utils.py 128-131). -/
structure BlockAcc where
  emoji_list : List J
  mention_list : List J
  link_count : Nat
  links : List J
deriving DecidableEq

/-- One innermost step of the block walk (utils.py 139-148): classify a
sub-element by its `type` tag and record its `name` / `user_id` / `url`
field. -/
def subStep (acc : BlockAcc) (e : J) : Option BlockAcc := do
  let hasTy ← jContains "type" e
  if hasTy then
    let ty ← jGet "type" e
    let acc1 ←
      if ty == J.s "emoji" then do
        let nm ← jGet "name" e
        pure { acc with emoji_list := acc.emoji_list ++ [nm] }
      else pure acc
    let acc2 ←
      if ty == J.s "user" then do
        let uid ← jGet "user_id" e
        pure { acc1 with mention_list := acc1.mention_list ++ [uid] }
      else pure acc1
    if ty == J.s "link" then do
      let url ← jGet "url" e
      pure { acc2 with link_count := acc2.link_count + 1, links := acc2.links ++ [url] }
    else pure acc2
  else pure acc

/-- The loop `for elm_ in elm["elements"]` (utils.py 137). -/
def subWalk (acc : BlockAcc) : List J → Option BlockAcc
  | [] => some acc
  | e :: es => do subWalk (← subStep acc e) es

/-- One middle-level step (utils.py 136-137): if the element carries an
`elements` key, walk its sub-elements. -/
def elmStep (acc : BlockAcc) (elm : J) : Option BlockAcc := do
  let he ← jContains "elements" elm
  if he then
    let es ← jGet "elements" elm
    let l ← jIter es
    subWalk acc l
  else pure acc

/-- The loop `for elm in blk["elements"]` (utils.py 135). -/
def elmWalk (acc : BlockAcc) : List J → Option BlockAcc
  | [] => some acc
  | e :: es => do elmWalk (← elmStep acc e) es

/-- One top-level step (utils.py 134-135): if the block carries an
`elements` key, walk its elements. -/
def blkStep (acc : BlockAcc) (blk : J) : Option BlockAcc := do
  let he ← jContains "elements" blk
  if he then
    let es ← jGet "elements" blk
    let l ← jIter es
    elmWalk acc l
  else pure acc

/-- The loop `for blk in msg["blocks"]` (utils.py 133). -/
def blkWalk (acc : BlockAcc) : List J → Option BlockAcc
  | [] => some acc
  | e :: es => do blkWalk (← blkStep acc e) es

/-- The reactions entry of a row (utils.py 112-115): the `reactions`
field when present, `None` otherwise. -/
def reactEntry (msg : J) : Option J := do
  let hr ← jContains "reactions" msg
  if hr then jGet "reactions" msg else pure J.null

/-- The replies_to entry of a row (utils.py 117-120): the message
timestamp when a `parent_user_id` key is present, `None` otherwise. -/
def rtoEntry (msg : J) : Option J := do
  let hp ← jContains "parent_user_id" msg
  if hp then jGet "ts" msg else pure J.null

/-- The replies entry of a row (utils.py 122-125): the `replies` field
when both `thread_ts` and `reply_users` keys are present (a KeyError
when `replies` itself is then missing), `None` otherwise. -/
def repsEntry (msg : J) : Option J := do
  let ht ← jContains "thread_ts" msg
  let hru ← if ht then jContains "reply_users" msg else pure false
  if ht && hru then jGet "replies" msg else pure J.null

/-- Processing of a single message inside the loop of
`get_messages_dict` (utils.py 101-159), appending to the columns of `t`.
Field accesses follow the source order; `msg["client_msg_id"]` sits in a
bare try/except that appends `None` on any failure, all other uncaught
failures abort the whole call (`none`). -/
def processMsg (t : MsgTable) (msg : J) : Option MsgTable := do
  let hasSub ← jContains "subtype" msg
  if hasSub then pure t
  else
    let mid := (jGet "client_msg_id" msg).getD J.null
    let tx ← jGet "text" msg
    let us ← jGet "user" msg
    let tss ← jGet "ts" msg
    let reacts ← reactEntry msg
    let rto ← rtoEntry msg
    let reps ← repsEntry msg
    let hasBlocks ← jContains "blocks" msg
    if hasBlocks then
      let bv ← jGet "blocks" msg
      let blks ← jIter bv
      let acc ← blkWalk ⟨[], [], 0, []⟩ blks
      pure { msg_id := t.msg_id ++ [mid], text := t.text ++ [tx],
             attachments := t.attachments, user := t.user ++ [us],
             mentions := t.mentions ++ [some acc.mention_list],
             emojis := t.emojis ++ [some acc.emoji_list],
             reactions := t.reactions ++ [reacts],
             replies := t.replies ++ [reps],
             replies_to := t.replies_to ++ [rto],
             ts := t.ts ++ [tss],
             links := t.links ++ [some acc.links],
             link_count := t.link_count ++ [acc.link_count] }
    else
      pure { msg_id := t.msg_id ++ [mid], text := t.text ++ [tx],
             attachments := t.attachments, user := t.user ++ [us],
             mentions := t.mentions ++ [none],
             emojis := t.emojis ++ [none],
             reactions := t.reactions ++ [reacts],
             replies := t.replies ++ [reps],
             replies_to := t.replies_to ++ [rto],
             ts := t.ts ++ [tss],
             links := t.links ++ [none],
             link_count := t.link_count ++ [0] }

/-- The loop `for msg in msgs` of `get_messages_dict` (utils.py 101). -/
def processMsgs (t : MsgTable) : List J → Option MsgTable
  | [] => some t
  | m :: ms => do processMsgs (← processMsg t m) ms

/-- `get_messages_dict` (utils.py 61-161): flatten a list of raw message
records into the column dictionary, skipping records that carry a
`subtype` key. -/
def get_messages_dict (msgs : List J) : Option MsgTable :=
  processMsgs emptyMsgTable msgs

/-- The type tag of a sub-element as the walk reads it
(utils.py 139): defined only when the membership test succeeds and the
tag is reachable. -/
def tagOf (e : J) : Option J :=
  match jContains "type" e with
  | some true => jGet "type" e
  | _ => none

/-- The projection the walk records for a `user` sub-element. -/
def userProj (e : J) : Option J :=
  if tagOf e == some (J.s "user") then jGet "user_id" e else none

/-- The projection the walk records for an `emoji` sub-element. -/
def emojiProj (e : J) : Option J :=
  if tagOf e == some (J.s "emoji") then jGet "name" e else none

/-- The projection the walk records for a `link` sub-element. -/
def linkProj (e : J) : Option J :=
  if tagOf e == some (J.s "link") then jGet "url" e else none

/-- The sub-elements one middle-level element contributes to the
two-level walk: the iteration of its `elements` value when that key is
present, nothing otherwise. -/
def subsOfElm (elm : J) : Option (List J) := do
  let he ← jContains "elements" elm
  if he then jIter (← jGet "elements" elm) else pure []

/-- The concatenation of the sub-element contributions of a list of
middle-level elements. -/
def collectElms : List J → Option (List J)
  | [] => some []
  | e :: es => do pure ((← subsOfElm e) ++ (← collectElms es))

/-- The sub-elements one block contributes: the concatenation of the
contributions of the elements reached through its `elements` key. -/
def subsOfBlk (blk : J) : Option (List J) := do
  let he ← jContains "elements" blk
  if he then
    let es ← jIter (← jGet "elements" blk)
    collectElms es
  else pure []

/-- All sub-elements reached by the two-level walk over a block list. -/
def collectSubs : List J → Option (List J)
  | [] => some []
  | blk :: rest => do pure ((← subsOfBlk blk) ++ (← collectSubs rest))

/-- One reply of the loop body of `from_msg_get_replies`
(utils.py 182-184): tag the reply record with the thread timestamp and
the parent message id; `none` models an exception inside the try block. -/
def replyStep (msg reply : J) : Option J := do
  let tts ← jGet "thread_ts" msg
  let r1 ← setKey reply "thread_ts" tts
  let cid ← jGet "client_msg_id" msg
  setKey r1 "message_id" cid

/-- The try-protected loop of `from_msg_get_replies` (utils.py 181-187):
replies accumulate one by one, and the first exception stops the loop,
keeping what was already appended (`except: pass`). -/
def replyGo (msg : J) : List J → List J
  | [] => []
  | r :: rs =>
    match replyStep msg r with
    | none => []
    | some r2 => r2 :: replyGo msg rs

/-- `from_msg_get_replies` (utils.py 163-188).  The membership tests on
`msg` sit outside the try block, so their `TypeError` on a scalar
record escapes (`none`); everything inside the try is swallowed. -/
def from_msg_get_replies (msg : J) : Option (List J) := do
  let h1 ← jContains "thread_ts" msg
  if h1 then
    let h2 ← jContains "replies" msg
    if h2 then
      match jGet "replies" msg with
      | none => pure []
      | some rl =>
        match jIter rl with
        | none => pure []
        | some rs => pure (replyGo msg rs)
    else pure []
  else pure []

/-- Is a value hashable in Python terms: lists and dicts are not, so
`Counter` raises on them. -/
def hashableJ : J → Bool
  | .arr _ => false
  | .obj _ => false
  | _ => true

/-- First-occurrence deduplication, carrying the set of already seen
values. -/
def dedupGo (seen : List J) : List J → List J
  | [] => []
  | x :: rest =>
    if seen.contains x then dedupGo seen rest
    else x :: dedupGo (x :: seen) rest

/-- The keys of `dict(Counter(xs))`: the distinct values of `xs` in
first-encounter order. -/
def dedupFirst (xs : List J) : List J := dedupGo [] xs

/-- `dict(Counter(xs))`: each distinct value of `xs`, in first-encounter
order, paired with its number of occurrences. -/
def counterList (xs : List J) : List (J × Nat) :=
  (dedupFirst xs).map (fun k => (k, xs.count k))

/-- The comprehension `[u for r in df.replies if r != None for u in r]`
(utils.py 54): flatten the non-null entries of the replies column,
raising when a non-null entry is not iterable. -/
def repliesFlat : List J → Option (List J)
  | [] => some []
  | r :: rs =>
    if r = J.null then repliesFlat rs
    else do pure ((← jIter r) ++ (← repliesFlat rs))

/-- The `replies_count_dict` computed by `get_msgs_df_info`
(utils.py 54): `dict(Counter(...))` over the flattened replies column.
`Counter` hashes its elements, so an unhashable element raises. -/
def replies_count_dict (tbl : MsgTable) : Option (List (J × Nat)) := do
  let flat ← repliesFlat tbl.replies
  if flat.all hashableJ then pure (counterList flat) else none

/-- The number of occurrences of `u` inside one entry of the replies
column: zero for a null entry, the element count of its iteration
otherwise. -/
def entryOccs (u : J) (r : J) : Nat :=
  if r = J.null then 0 else ((jIter r).getD []).count u

/-- The number of occurrences of `u` as an element across all non-null
entries of the replies column. -/
def colOccs (u : J) (col : List J) : Nat :=
  (col.map (entryOccs u)).sum

/-- Gregorian date of a day count relative to 1970-01-01 (the civil
calendar conversion performed by `datetime.datetime.fromtimestamp`).
All divisors are positive, so Euclidean division is floor division
here, matching the reference algorithm. -/
def civilFromDays (z0 : Int) : Int × Int × Int :=
  let z := z0 + 719468
  let era := z / 146097
  let doe := z - era * 146097
  let yoe := (doe - doe / 1460 + doe / 36524 - doe / 146096) / 365
  let y := yoe + era * 400
  let doy := doe - (365 * yoe + yoe / 4 - yoe / 100)
  let mp := (5 * doy + 2) / 153
  let d := doy - (153 * mp + 2) / 5 + 1
  let m := mp + (if mp < 10 then 3 else -9)
  (if m ≤ 2 then y + 1 else y, m, d)

/-- `datetime.datetime.fromtimestamp` (utils.py 259), modelled at UTC:
split the epoch value into a civil date and a time of day, raising
(`none`) when the year falls outside the range MINYEAR..MAXYEAR = 1..9999
supported by `datetime`. -/
def fromtimestampUTC (t : Int) : Option (Int × Int × Int × Int × Int × Int) :=
  let days := t / 86400
  let sod := t % 86400
  let c := civilFromDays days
  if 1 ≤ c.1 ∧ c.1 ≤ 9999 then
    some (c.1, c.2.1, c.2.2, sod / 3600, sod / 60 % 60, sod % 60)
  else none

/-- Two-digit zero-padded decimal rendering, as `%m %d %H %M %S`
produce for their in-range arguments. -/
def pad2 (n : Int) : List Char :=
  [Nat.digitChar (n.toNat / 10 % 10), Nat.digitChar (n.toNat % 10)]

/-- Decimal rendering of the year as `%Y` prints it for the years
1..9999 that `datetime` supports: no padding below 1000, four digits
from 1000 on. -/
def yearChars (y : Int) : List Char :=
  let n := y.toNat
  if n < 10 then [Nat.digitChar n]
  else if n < 100 then [Nat.digitChar (n / 10), Nat.digitChar (n % 10)]
  else if n < 1000 then
    [Nat.digitChar (n / 100), Nat.digitChar (n / 10 % 10), Nat.digitChar (n % 10)]
  else
    [Nat.digitChar (n / 1000 % 10), Nat.digitChar (n / 100 % 10),
     Nat.digitChar (n / 10 % 10), Nat.digitChar (n % 10)]

/-- `strftime` with the format string of utils.py 260. -/
def strftimeYmdHMS (y m d h mi s : Int) : String :=
  String.mk (yearChars y ++ '-' :: pad2 m ++ '-' :: pad2 d ++
    ' ' :: pad2 h ++ ':' :: pad2 mi ++ ':' :: pad2 s)

/-- The loop body of `convert_2_timestamp` (utils.py 256-260): a zero
epoch is kept as the integer 0, any other value is converted and
formatted. -/
def convertEntry (t : Int) : Option J :=
  if t = 0 then some (J.n 0)
  else do
    let c ← fromtimestampUTC t
    pure (J.s (strftimeYmdHMS c.1 c.2.1 c.2.2.1 c.2.2.2.1 c.2.2.2.2.1 c.2.2.2.2.2))

/-- The loop of `convert_2_timestamp` over the column entries
(utils.py 254-261). -/
def convertColumn : List Int → Option (List J)
  | [] => some []
  | t :: ts => do pure ((← convertEntry t) :: (← convertColumn ts))

/-- `convert_2_timestamp` (utils.py 248-263): convert the named column
when present (`some (some out)`), return `None` after printing a notice
when absent (`some none`); an exception inside the loop escapes
(`none`). -/
def convert_2_timestamp (column : String) (data : List (String × List Int)) :
    Option (Option (List J)) :=
  match dictLookup data column with
  | some col => (convertColumn col).map some
  | none => some none

/-- Does a string have the shape `YYYY-MM-DD HH:MM:SS`: nineteen
characters, digits everywhere except the fixed separators. -/
def tsShape (str : String) : Bool :=
  match str.data with
  | [y1, y2, y3, y4, c1, m1, m2, c2, d1, d2, c3, h1, h2, c4, i1, i2, c5, s1, s2] =>
    y1.isDigit && y2.isDigit && y3.isDigit && y4.isDigit && (c1 == '-') &&
    m1.isDigit && m2.isDigit && (c2 == '-') && d1.isDigit && d2.isDigit &&
    (c3 == ' ') && h1.isDigit && h2.isDigit && (c4 == ':') &&
    i1.isDigit && i2.isDigit && (c5 == ':') && s1.isDigit && s2.isDigit
  | _ => false

/-- The profile dataset consumed by `map_userid_2_realname`
(utils.py 283-289): `user_profile["profile"]` is an integer-indexed
dictionary of profile records (so that `dict(...)[i]` looks up the
index `i`), and `user_profile["id"]` is the sequence of opaque user
identifiers iterated by `for i in user_profile["id"]`. -/
structure UserProfile where
  profile : List (Nat × J)
  id : List J

/-- The loop of utils.py 283-284: for every index below the profile
length, look the index up in the profile dictionary (KeyError when a
row index is missing) and take the `real_name` field of the record. -/
def buildRealNames (profile : List (Nat × J)) : Option (List J) :=
  (List.range profile.length).mapM
    (fun i => do jGet "real_name" (← dictLookup profile i))

/-- The loop of utils.py 287-289: pair the identifiers with the
collected real names positionally, by a running counter; an IndexError
(`none`) when there are more identifiers than names. -/
def userDictGo (names : List J) (count : Nat) (acc : List (J × J)) :
    List J → Option (List (J × J))
  | [] => some acc
  | i :: rest => do
    let nm ← names.get? count
    userDictGo names (count + 1) (dictSet acc i nm) rest

/-- The identifier-to-name directory `user_dict` built by
`map_userid_2_realname` (utils.py 278-289). -/
def buildUserDict (up : UserProfile) : Option (List (J × J)) := do
  let names ← buildRealNames up.profile
  userDictGo names 0 [] up.id

/-- The loop of utils.py 292-294: walk the count mapping in insertion
order and re-key each count whose identifier resolves through the
directory, silently skipping identifiers the directory lacks. -/
def buildAcComm (ud : List (J × J)) (acc : List (J × Int)) :
    List (J × Int) → List (J × Int)
  | [] => acc
  | p :: rest =>
    match dictLookup ud p.1 with
    | some nm => buildAcComm ud (dictSet acc nm p.2) rest
    | none => buildAcComm ud acc rest

/-- Insertion into a list kept in descending count order. -/
def insertDesc (x : J × Int) : List (J × Int) → List (J × Int)
  | [] => [x]
  | y :: ys => if y.2 < x.2 then x :: y :: ys else y :: insertDesc x ys

/-- Sorting by descending count, the effect of
`sort_values(by=..., ascending=False)` on the two-column frame of
utils.py 296-297 (pandas fixes no order among equal counts; this model
picks one). -/
def sortDesc : List (J × Int) → List (J × Int)
  | [] => []
  | x :: xs => insertDesc x (sortDesc xs)

/-- Is a list of name/count rows in descending count order. -/
def sortedDescB : List (J × Int) → Bool
  | [] => true
  | [_] => true
  | a :: b :: r => decide (b.2 ≤ a.2) && sortedDescB (b :: r)

/-- `map_userid_2_realname` (utils.py 272-303) with `plot=False`: build
the identifier-to-name directory, re-key the counts by real name, and
return the rows sorted by descending count.  The plotting branch is
I/O and changes no data. -/
def map_userid_2_realname (up : UserProfile) (comm_dict : List (J × Int)) :
    Option (List (J × Int)) := do
  let ud ← buildUserDict up
  pure (sortDesc (buildAcComm ud [] comm_dict))

/-- Characterization of one successful no-subtype iteration of the
`get_messages_dict` loop: the required fields were readable, every
column except attachments gains exactly one entry, and the
mention/emoji/link entries follow the blocks branch taken. -/
theorem processMsg_noSub_char (t : MsgTable) (msg : J) (t' : MsgTable)
    (hsub : jContains "subtype" msg = some false)
    (h : processMsg t msg = some t') :
    ∃ tx us tss re rto reps,
      jGet "text" msg = some tx ∧ jGet "user" msg = some us ∧
      jGet "ts" msg = some tss ∧ reactEntry msg = some re ∧
      rtoEntry msg = some rto ∧ repsEntry msg = some reps ∧
      t'.msg_id = t.msg_id ++ [(jGet "client_msg_id" msg).getD J.null] ∧
      t'.text = t.text ++ [tx] ∧
      t'.attachments = t.attachments ∧
      t'.user = t.user ++ [us] ∧
      t'.reactions = t.reactions ++ [re] ∧
      t'.replies = t.replies ++ [reps] ∧
      t'.replies_to = t.replies_to ++ [rto] ∧
      t'.ts = t.ts ++ [tss] ∧
      ((jContains "blocks" msg = some false ∧
        t'.mentions = t.mentions ++ [none] ∧ t'.emojis = t.emojis ++ [none] ∧
        t'.links = t.links ++ [none] ∧ t'.link_count = t.link_count ++ [0]) ∨
       (jContains "blocks" msg = some true ∧
        ∃ bv blks acc, jGet "blocks" msg = some bv ∧ jIter bv = some blks ∧
          blkWalk ⟨[], [], 0, []⟩ blks = some acc ∧
          t'.mentions = t.mentions ++ [some acc.mention_list] ∧
          t'.emojis = t.emojis ++ [some acc.emoji_list] ∧
          t'.links = t.links ++ [some acc.links] ∧
          t'.link_count = t.link_count ++ [acc.link_count])) := by
  simp only [processMsg, hsub, bind, Option.bind_eq_bind', Option.some_bind,
    Bool.false_eq_true, reduceIte] at h
  rw [Option.bind_eq_some] at h
  obtain ⟨tx, htx, h⟩ := h
  rw [Option.bind_eq_some] at h
  obtain ⟨us, hus, h⟩ := h
  rw [Option.bind_eq_some] at h
  obtain ⟨tss, htss, h⟩ := h
  rw [Option.bind_eq_some] at h
  obtain ⟨re, hre, h⟩ := h
  rw [Option.bind_eq_some] at h
  obtain ⟨rto, hrto, h⟩ := h
  rw [Option.bind_eq_some] at h
  obtain ⟨reps, hreps, h⟩ := h
  rw [Option.bind_eq_some] at h
  obtain ⟨hb, hhb, h⟩ := h
  refine ⟨tx, us, tss, re, rto, reps, htx, hus, htss, hre, hrto, hreps, ?_⟩
  cases hb with
  | false =>
    simp only [Bool.false_eq_true, reduceIte, Option.pure_def, Option.some_inj] at h
    subst h
    exact ⟨rfl, rfl, rfl, rfl, rfl, rfl, rfl, rfl,
      Or.inl ⟨hhb, rfl, rfl, rfl, rfl⟩⟩
  | true =>
    simp only [reduceIte] at h
    rw [Option.bind_eq_some] at h
    obtain ⟨bv, hbv, h⟩ := h
    rw [Option.bind_eq_some] at h
    obtain ⟨blks, hblks, h⟩ := h
    rw [Option.bind_eq_some] at h
    obtain ⟨acc, hacc, h⟩ := h
    simp only [Option.pure_def, Option.some_inj] at h
    subst h
    exact ⟨rfl, rfl, rfl, rfl, rfl, rfl, rfl, rfl,
      Or.inr ⟨hhb, bv, blks, acc, hbv, hblks, hacc, rfl, rfl, rfl, rfl⟩⟩

/-- A message carrying a `subtype` key is skipped unchanged. -/
theorem processMsg_subtype_skip (t : MsgTable) (msg : J)
    (hsub : jContains "subtype" msg = some true) :
    processMsg t msg = some t := by
  simp [processMsg, hsub]

/-- Prepending the optional projection of the head to the projections of
the tail gives the projection of the whole list. -/
theorem toList_append_filterMap (f : J → Option J) (e : J) (es : List J) :
    (f e).toList ++ es.filterMap f = (e :: es).filterMap f := by
  cases h : f e <;> simp [List.filterMap_cons, h]

/-- One sub-element step adds exactly the matching projections. -/
theorem subStep_char (acc acc' : BlockAcc) (e : J) (h : subStep acc e = some acc') :
    acc'.emoji_list = acc.emoji_list ++ (emojiProj e).toList ∧
    acc'.mention_list = acc.mention_list ++ (userProj e).toList ∧
    acc'.links = acc.links ++ (linkProj e).toList ∧
    acc'.link_count = acc.link_count + (linkProj e).toList.length := by
  simp only [subStep, bind, Option.bind_eq_bind'] at h
  cases hct : jContains "type" e with
  | none => rw [hct] at h; simp at h
  | some hasTy =>
    rw [hct] at h
    simp only [Option.some_bind] at h
    cases hasTy with
    | false =>
      simp only [Bool.false_eq_true, reduceIte, Option.pure_def, Option.some_inj] at h
      subst h
      simp [emojiProj, userProj, linkProj, tagOf, hct]
    | true =>
      simp only [reduceIte] at h
      cases hty : jGet "type" e with
      | none => rw [hty] at h; simp at h
      | some ty =>
        rw [hty] at h
        simp only [Option.some_bind] at h
        have htag : tagOf e = some ty := by simp [tagOf, hct, hty]
        by_cases hE : ty = J.s "emoji"
        · subst hE
          simp only [beq_self_eq_true, reduceIte,
            show (J.s "emoji" == J.s "user") = false from by decide,
            show (J.s "emoji" == J.s "link") = false from by decide,
            Bool.false_eq_true, Option.pure_def, Option.some_bind] at h
          rw [Option.bind_eq_some] at h
          obtain ⟨nm, hnm, h⟩ := h
          simp only [Option.some_bind, Option.some_inj] at h
          subst h
          simp [emojiProj, userProj, linkProj, htag, hnm]
        · by_cases hU : ty = J.s "user"
          · subst hU
            simp only [beq_self_eq_true, reduceIte,
              show (J.s "user" == J.s "emoji") = false from by decide,
              show (J.s "user" == J.s "link") = false from by decide,
              Bool.false_eq_true, Option.pure_def, Option.some_bind] at h
            rw [Option.bind_eq_some] at h
            obtain ⟨uid, huid, h⟩ := h
            simp only [Option.some_bind, Option.some_inj] at h
            subst h
            simp [emojiProj, userProj, linkProj, htag, huid]
          · by_cases hL : ty = J.s "link"
            · subst hL
              simp only [beq_self_eq_true, reduceIte,
                show (J.s "link" == J.s "emoji") = false from by decide,
                show (J.s "link" == J.s "user") = false from by decide,
                Bool.false_eq_true, Option.pure_def, Option.some_bind] at h
              rw [Option.bind_eq_some] at h
              obtain ⟨url, hurl, h⟩ := h
              simp only [Option.some_bind, Option.some_inj] at h
              subst h
              simp [emojiProj, userProj, linkProj, htag, hurl]
            · have e1 : (ty == J.s "emoji") = false := by
                simp [beq_eq_false_iff_ne, hE]
              have e2 : (ty == J.s "user") = false := by
                simp [beq_eq_false_iff_ne, hU]
              have e3 : (ty == J.s "link") = false := by
                simp [beq_eq_false_iff_ne, hL]
              simp only [e1, e2, e3, Bool.false_eq_true, reduceIte,
                Option.pure_def, Option.some_bind, Option.some_inj] at h
              subst h
              simp [emojiProj, userProj, linkProj, htag, hE, hU, hL]

/-- The innermost walk appends exactly the projections of the
sub-element list. -/
theorem subWalk_char (l : List J) : ∀ acc acc', subWalk acc l = some acc' →
    acc'.emoji_list = acc.emoji_list ++ l.filterMap emojiProj ∧
    acc'.mention_list = acc.mention_list ++ l.filterMap userProj ∧
    acc'.links = acc.links ++ l.filterMap linkProj ∧
    acc'.link_count = acc.link_count + (l.filterMap linkProj).length := by
  induction l with
  | nil =>
    intro acc acc' h
    simp only [subWalk, Option.some_inj] at h
    subst h
    simp
  | cons e es ih =>
    intro acc acc' h
    simp only [subWalk, bind, Option.bind_eq_bind'] at h
    rw [Option.bind_eq_some] at h
    obtain ⟨acc1, h1, h2⟩ := h
    obtain ⟨he, hm, hl, hc⟩ := subStep_char _ _ _ h1
    obtain ⟨ihe, ihm, ihl, ihc⟩ := ih _ _ h2
    refine ⟨?_, ?_, ?_, ?_⟩
    · rw [ihe, he, List.append_assoc, toList_append_filterMap]
    · rw [ihm, hm, List.append_assoc, toList_append_filterMap]
    · rw [ihl, hl, List.append_assoc, toList_append_filterMap]
    · rw [ihc, hc, ← toList_append_filterMap, List.length_append]
      omega

/-- One middle-level step appends exactly the projections of the
sub-elements it contributes. -/
theorem elmStep_char (acc acc' : BlockAcc) (elm : J) (h : elmStep acc elm = some acc') :
    ∃ s, subsOfElm elm = some s ∧
      acc'.emoji_list = acc.emoji_list ++ s.filterMap emojiProj ∧
      acc'.mention_list = acc.mention_list ++ s.filterMap userProj ∧
      acc'.links = acc.links ++ s.filterMap linkProj ∧
      acc'.link_count = acc.link_count + (s.filterMap linkProj).length := by
  simp only [elmStep, bind, Option.bind_eq_bind'] at h
  cases hce : jContains "elements" elm with
  | none => rw [hce] at h; simp at h
  | some hasE =>
    rw [hce] at h
    simp only [Option.some_bind] at h
    cases hasE with
    | false =>
      simp only [Bool.false_eq_true, reduceIte, Option.pure_def, Option.some_inj] at h
      subst h
      refine ⟨[], ?_, by simp, by simp, by simp, by simp⟩
      simp [subsOfElm, hce]
    | true =>
      simp only [reduceIte] at h
      cases hes : jGet "elements" elm with
      | none => rw [hes] at h; simp at h
      | some es =>
        rw [hes] at h
        simp only [Option.some_bind] at h
        cases hit : jIter es with
        | none => rw [hit] at h; simp at h
        | some l =>
          rw [hit] at h
          simp only [Option.some_bind] at h
          obtain ⟨he, hm, hl, hc⟩ := subWalk_char _ _ _ h
          refine ⟨l, ?_, he, hm, hl, hc⟩
          simp [subsOfElm, hce, hes, hit]

/-- The middle-level walk appends exactly the projections of the
collected sub-elements. -/
theorem elmWalk_char (es : List J) : ∀ acc acc', elmWalk acc es = some acc' →
    ∃ s, collectElms es = some s ∧
      acc'.emoji_list = acc.emoji_list ++ s.filterMap emojiProj ∧
      acc'.mention_list = acc.mention_list ++ s.filterMap userProj ∧
      acc'.links = acc.links ++ s.filterMap linkProj ∧
      acc'.link_count = acc.link_count + (s.filterMap linkProj).length := by
  induction es with
  | nil =>
    intro acc acc' h
    simp only [elmWalk, Option.some_inj] at h
    subst h
    exact ⟨[], rfl, by simp, by simp, by simp, by simp⟩
  | cons e es ih =>
    intro acc acc' h
    simp only [elmWalk, bind, Option.bind_eq_bind'] at h
    rw [Option.bind_eq_some] at h
    obtain ⟨acc1, h1, h2⟩ := h
    obtain ⟨s1, hs1, he, hm, hl, hc⟩ := elmStep_char _ _ _ h1
    obtain ⟨s2, hs2, ihe, ihm, ihl, ihc⟩ := ih _ _ h2
    refine ⟨s1 ++ s2, ?_, ?_, ?_, ?_, ?_⟩
    · simp only [collectElms, bind, Option.bind_eq_bind', hs1, hs2,
        Option.some_bind, Option.pure_def]
    · rw [ihe, he, List.append_assoc, List.filterMap_append]
    · rw [ihm, hm, List.append_assoc, List.filterMap_append]
    · rw [ihl, hl, List.append_assoc, List.filterMap_append]
    · rw [ihc, hc, List.filterMap_append, List.length_append]
      omega

/-- One block step appends exactly the projections of the
sub-elements it contributes. -/
theorem blkStep_char (acc acc' : BlockAcc) (blk : J) (h : blkStep acc blk = some acc') :
    ∃ s, subsOfBlk blk = some s ∧
      acc'.emoji_list = acc.emoji_list ++ s.filterMap emojiProj ∧
      acc'.mention_list = acc.mention_list ++ s.filterMap userProj ∧
      acc'.links = acc.links ++ s.filterMap linkProj ∧
      acc'.link_count = acc.link_count + (s.filterMap linkProj).length := by
  simp only [blkStep, bind, Option.bind_eq_bind'] at h
  cases hce : jContains "elements" blk with
  | none => rw [hce] at h; simp at h
  | some hasE =>
    rw [hce] at h
    simp only [Option.some_bind] at h
    cases hasE with
    | false =>
      simp only [Bool.false_eq_true, reduceIte, Option.pure_def, Option.some_inj] at h
      subst h
      refine ⟨[], ?_, by simp, by simp, by simp, by simp⟩
      simp [subsOfBlk, hce]
    | true =>
      simp only [reduceIte] at h
      cases hes : jGet "elements" blk with
      | none => rw [hes] at h; simp at h
      | some es =>
        rw [hes] at h
        simp only [Option.some_bind] at h
        cases hit : jIter es with
        | none => rw [hit] at h; simp at h
        | some l =>
          rw [hit] at h
          simp only [Option.some_bind] at h
          obtain ⟨s, hs, he, hm, hl, hc⟩ := elmWalk_char _ _ _ h
          refine ⟨s, ?_, he, hm, hl, hc⟩
          simp only [subsOfBlk, bind, Option.bind_eq_bind', hce, hes, hit,
            Option.some_bind, reduceIte]
          exact hs

/-- The full two-level walk computes exactly the projections of all
collected sub-elements. -/
theorem blkWalk_char (blks : List J) : ∀ acc acc', blkWalk acc blks = some acc' →
    ∃ s, collectSubs blks = some s ∧
      acc'.emoji_list = acc.emoji_list ++ s.filterMap emojiProj ∧
      acc'.mention_list = acc.mention_list ++ s.filterMap userProj ∧
      acc'.links = acc.links ++ s.filterMap linkProj ∧
      acc'.link_count = acc.link_count + (s.filterMap linkProj).length := by
  induction blks with
  | nil =>
    intro acc acc' h
    simp only [blkWalk, Option.some_inj] at h
    subst h
    exact ⟨[], rfl, by simp, by simp, by simp, by simp⟩
  | cons e es ih =>
    intro acc acc' h
    simp only [blkWalk, bind, Option.bind_eq_bind'] at h
    rw [Option.bind_eq_some] at h
    obtain ⟨acc1, h1, h2⟩ := h
    obtain ⟨s1, hs1, he, hm, hl, hc⟩ := blkStep_char _ _ _ h1
    obtain ⟨s2, hs2, ihe, ihm, ihl, ihc⟩ := ih _ _ h2
    refine ⟨s1 ++ s2, ?_, ?_, ?_, ?_, ?_⟩
    · simp only [collectSubs, bind, Option.bind_eq_bind', hs1, hs2,
        Option.some_bind, Option.pure_def]
    · rw [ihe, he, List.append_assoc, List.filterMap_append]
    · rw [ihm, hm, List.append_assoc, List.filterMap_append]
    · rw [ihl, hl, List.append_assoc, List.filterMap_append]
    · rw [ihc, hc, List.filterMap_append, List.length_append]
      omega

/-- C1: for a message processed without a `subtype` key and carrying a
`blocks` key, the appended mention entry is exactly the `user_id` of the
sub-elements whose type tag is `user` (in walk order), the emoji entry
exactly the `name` of those tagged `emoji`, the link entry exactly the
`url` of those tagged `link`, and the appended link count equals the
length of the extracted link list. -/
theorem c1_blocks_extraction (t t' : MsgTable) (msg : J)
    (hsub : jContains "subtype" msg = some false)
    (hb : jContains "blocks" msg = some true)
    (h : processMsg t msg = some t') :
    ∃ bv blks se, jGet "blocks" msg = some bv ∧ jIter bv = some blks ∧
      collectSubs blks = some se ∧
      t'.mentions = t.mentions ++ [some (se.filterMap userProj)] ∧
      t'.emojis = t.emojis ++ [some (se.filterMap emojiProj)] ∧
      t'.links = t.links ++ [some (se.filterMap linkProj)] ∧
      t'.link_count = t.link_count ++ [(se.filterMap linkProj).length] := by
  obtain ⟨tx, us, tss, re, rto, reps, _, _, _, _, _, _, _, _, _, _, _, _, _, _, hor⟩ :=
    processMsg_noSub_char t msg t' hsub h
  rcases hor with ⟨hfalse, _⟩ | ⟨_, bv, blks, acc, hbv, hblks, hacc, hm, he, hl, hc⟩
  · rw [hb] at hfalse
    exact absurd (Option.some_inj.mp hfalse) (by simp)
  · obtain ⟨se, hse, ae, am, al, ac⟩ := blkWalk_char blks _ _ hacc
    refine ⟨bv, blks, se, hbv, hblks, hse, ?_, ?_, ?_, ?_⟩
    · rw [hm, am]; simp
    · rw [he, ae]; simp
    · rw [hl, al]; simp
    · rw [hc, ac]; simp

/-- A concrete message with a layout-block structure. -/
def wMsgBlocks : J := J.obj [("client_msg_id", J.s "id1"), ("text", J.s "hello"),
  ("user", J.s "U1"), ("ts", J.s "1.0"),
  ("blocks", J.arr [J.obj [("elements", J.arr [J.obj [("elements", J.arr [
     J.obj [("type", J.s "user"), ("user_id", J.s "U2")],
     J.obj [("type", J.s "emoji"), ("name", J.s "smile")],
     J.obj [("type", J.s "link"), ("url", J.s "http://x")]])]])]])]

/-- The table produced from `wMsgBlocks` alone. -/
def wTblBlocks : MsgTable :=
  ⟨[J.s "id1"], [J.s "hello"], [], [J.s "U1"],
   [some [J.s "U2"]], [some [J.s "smile"]], [J.null], [J.null], [J.null], [J.s "1.0"],
   [some [J.s "http://x"]], [1]⟩

/-- Witness for C1 at a concrete message. -/
theorem c1_blocks_extraction_witness :
    ∃ bv blks se, jGet "blocks" wMsgBlocks = some bv ∧ jIter bv = some blks ∧
      collectSubs blks = some se ∧
      wTblBlocks.mentions = emptyMsgTable.mentions ++ [some (se.filterMap userProj)] ∧
      wTblBlocks.emojis = emptyMsgTable.emojis ++ [some (se.filterMap emojiProj)] ∧
      wTblBlocks.links = emptyMsgTable.links ++ [some (se.filterMap linkProj)] ∧
      wTblBlocks.link_count = emptyMsgTable.link_count ++ [(se.filterMap linkProj).length] :=
  c1_blocks_extraction emptyMsgTable wTblBlocks wMsgBlocks (by decide) (by decide) (by decide)

/-- C2: a message without a `subtype` key produces exactly one new row,
carrying its identifier, text, sender and timestamp; a message with a
`subtype` key produces no row. -/
theorem c2_one_row_per_plain_message :
    (∀ (t t' : MsgTable) (msg : J), jContains "subtype" msg = some false →
      processMsg t msg = some t' →
      ∃ tx us tss, jGet "text" msg = some tx ∧ jGet "user" msg = some us ∧
        jGet "ts" msg = some tss ∧
        t'.msg_id = t.msg_id ++ [(jGet "client_msg_id" msg).getD J.null] ∧
        t'.text = t.text ++ [tx] ∧ t'.user = t.user ++ [us] ∧ t'.ts = t.ts ++ [tss] ∧
        t'.msg_id.length = t.msg_id.length + 1) ∧
    (∀ (t : MsgTable) (msg : J), jContains "subtype" msg = some true →
      processMsg t msg = some t) := by
  constructor
  · intro t t' msg hsub h
    obtain ⟨tx, us, tss, re, rto, reps, htx, hus, htss, _, _, _, hmid, htext,
      _, huser, _, _, _, hts, _⟩ := processMsg_noSub_char t msg t' hsub h
    exact ⟨tx, us, tss, htx, hus, htss, hmid, htext, huser, hts,
      by rw [hmid]; simp⟩
  · intro t msg hsub
    exact processMsg_subtype_skip t msg hsub

/-- A concrete message without optional fields and without a subtype. -/
def wMsgPlain : J := J.obj [("client_msg_id", J.s "id2"), ("text", J.s "hi"),
  ("user", J.s "U3"), ("ts", J.s "2.0")]

/-- The table produced from `wMsgPlain` alone. -/
def wTblPlain : MsgTable :=
  ⟨[J.s "id2"], [J.s "hi"], [], [J.s "U3"],
   [none], [none], [J.null], [J.null], [J.null], [J.s "2.0"], [none], [0]⟩

/-- Witness for C2: both parts applied at concrete messages. -/
theorem c2_one_row_per_plain_message_witness :
    (∃ tx us tss, jGet "text" wMsgPlain = some tx ∧ jGet "user" wMsgPlain = some us ∧
      jGet "ts" wMsgPlain = some tss ∧
      wTblPlain.msg_id = emptyMsgTable.msg_id ++ [(jGet "client_msg_id" wMsgPlain).getD J.null] ∧
      wTblPlain.text = emptyMsgTable.text ++ [tx] ∧
      wTblPlain.user = emptyMsgTable.user ++ [us] ∧
      wTblPlain.ts = emptyMsgTable.ts ++ [tss] ∧
      wTblPlain.msg_id.length = emptyMsgTable.msg_id.length + 1) ∧
    processMsg emptyMsgTable (J.obj [("subtype", J.s "join")]) = some emptyMsgTable :=
  ⟨c2_one_row_per_plain_message.1 emptyMsgTable wTblPlain wMsgPlain (by decide) (by decide),
   c2_one_row_per_plain_message.2 emptyMsgTable (J.obj [("subtype", J.s "join")]) (by decide)⟩

/-- C7: a message processed without a `subtype` key and without a
`blocks` key gets null mention, emoji and link entries and a zero link
count. -/
theorem c7_no_blocks_defaults (t t' : MsgTable) (msg : J)
    (hsub : jContains "subtype" msg = some false)
    (hb : jContains "blocks" msg = some false)
    (h : processMsg t msg = some t') :
    t'.mentions = t.mentions ++ [none] ∧ t'.emojis = t.emojis ++ [none] ∧
    t'.links = t.links ++ [none] ∧ t'.link_count = t.link_count ++ [0] := by
  obtain ⟨_, _, _, _, _, _, _, _, _, _, _, _, _, _, _, _, _, _, _, _, hor⟩ :=
    processMsg_noSub_char t msg t' hsub h
  rcases hor with ⟨_, hm, he, hl, hc⟩ | ⟨htrue, _⟩
  · exact ⟨hm, he, hl, hc⟩
  · rw [hb] at htrue
    exact absurd (Option.some_inj.mp htrue) (by simp)

/-- Witness for C7 at a concrete message. -/
theorem c7_no_blocks_defaults_witness :
    wTblPlain.mentions = emptyMsgTable.mentions ++ [none] ∧
    wTblPlain.emojis = emptyMsgTable.emojis ++ [none] ∧
    wTblPlain.links = emptyMsgTable.links ++ [none] ∧
    wTblPlain.link_count = emptyMsgTable.link_count ++ [0] :=
  c7_no_blocks_defaults emptyMsgTable wTblPlain wMsgPlain (by decide) (by decide) (by decide)

/-- The number of input messages lacking a `subtype` key (among those
whose membership test is defined). -/
def countNoSub (msgs : List J) : Nat :=
  (msgs.filter (fun m => jContains "subtype" m == some false)).length

/-- Every successful run of the extraction loop grows each column by
the number of processed no-subtype messages, and never touches the
attachments column. -/
theorem processMsgs_lengths (ms : List J) : ∀ t tbl, processMsgs t ms = some tbl →
    tbl.msg_id.length = t.msg_id.length + countNoSub ms ∧
    tbl.text.length = t.text.length + countNoSub ms ∧
    tbl.user.length = t.user.length + countNoSub ms ∧
    tbl.mentions.length = t.mentions.length + countNoSub ms ∧
    tbl.emojis.length = t.emojis.length + countNoSub ms ∧
    tbl.reactions.length = t.reactions.length + countNoSub ms ∧
    tbl.replies.length = t.replies.length + countNoSub ms ∧
    tbl.replies_to.length = t.replies_to.length + countNoSub ms ∧
    tbl.ts.length = t.ts.length + countNoSub ms ∧
    tbl.links.length = t.links.length + countNoSub ms ∧
    tbl.link_count.length = t.link_count.length + countNoSub ms ∧
    tbl.attachments = t.attachments := by
  induction ms with
  | nil =>
    intro t tbl h
    simp only [processMsgs, Option.some_inj] at h
    subst h
    simp [countNoSub]
  | cons m ms ih =>
    intro t tbl h
    simp only [processMsgs, bind, Option.bind_eq_bind'] at h
    rw [Option.bind_eq_some] at h
    obtain ⟨t1, h1, h2⟩ := h
    obtain ⟨i1, i2, i3, i4, i5, i6, i7, i8, i9, i10, i11, i12⟩ := ih t1 tbl h2
    cases hsub : jContains "subtype" m with
    | none => exact absurd h1 (by simp [processMsg, hsub])
    | some bv =>
      cases bv with
      | true =>
        rw [processMsg_subtype_skip t m hsub] at h1
        obtain rfl : t = t1 := Option.some_inj.mp h1
        have hcount : countNoSub (m :: ms) = countNoSub ms := by
          simp [countNoSub, List.filter_cons, hsub]
        rw [hcount]
        exact ⟨i1, i2, i3, i4, i5, i6, i7, i8, i9, i10, i11, i12⟩
      | false =>
        obtain ⟨tx, us, tss, re, rto, reps, _, _, _, _, _, _, hmid, htext, hatt,
          huser, hreact, hreps, hrto, hts, hor⟩ := processMsg_noSub_char t m t1 hsub h1
        have hcount : countNoSub (m :: ms) = countNoSub ms + 1 := by
          simp [countNoSub, List.filter_cons, hsub]
        have hm : t1.mentions.length = t.mentions.length + 1 := by
          rcases hor with ⟨_, hx, _, _, _⟩ | ⟨_, _, _, _, _, _, _, hx, _, _, _⟩ <;>
            rw [hx] <;> simp
        have hej : t1.emojis.length = t.emojis.length + 1 := by
          rcases hor with ⟨_, _, hx, _, _⟩ | ⟨_, _, _, _, _, _, _, _, hx, _, _⟩ <;>
            rw [hx] <;> simp
        have hlk : t1.links.length = t.links.length + 1 := by
          rcases hor with ⟨_, _, _, hx, _⟩ | ⟨_, _, _, _, _, _, _, _, _, hx, _⟩ <;>
            rw [hx] <;> simp
        have hlc : t1.link_count.length = t.link_count.length + 1 := by
          rcases hor with ⟨_, _, _, _, hx⟩ | ⟨_, _, _, _, _, _, _, _, _, _, hx⟩ <;>
            rw [hx] <;> simp
        refine ⟨?_, ?_, ?_, ?_, ?_, ?_, ?_, ?_, ?_, ?_, ?_, ?_⟩
        · rw [i1, hmid, hcount, List.length_append, List.length_singleton]; omega
        · rw [i2, htext, hcount, List.length_append, List.length_singleton]; omega
        · rw [i3, huser, hcount, List.length_append, List.length_singleton]; omega
        · rw [i4, hm, hcount]; omega
        · rw [i5, hej, hcount]; omega
        · rw [i6, hreact, hcount, List.length_append, List.length_singleton]; omega
        · rw [i7, hreps, hcount, List.length_append, List.length_singleton]; omega
        · rw [i8, hrto, hcount, List.length_append, List.length_singleton]; omega
        · rw [i9, hts, hcount, List.length_append, List.length_singleton]; omega
        · rw [i10, hlk, hcount]; omega
        · rw [i11, hlc, hcount]; omega
        · rw [i12, hatt]

/-- C10: on any input list for which extraction succeeds, all columns
of the produced table have length equal to the number of input
messages lacking a `subtype` key, except the attachments column, which
stays empty. -/
theorem c10_table_wellformed (msgs : List J) (tbl : MsgTable)
    (h : get_messages_dict msgs = some tbl) :
    tbl.msg_id.length = countNoSub msgs ∧ tbl.text.length = countNoSub msgs ∧
    tbl.user.length = countNoSub msgs ∧ tbl.mentions.length = countNoSub msgs ∧
    tbl.emojis.length = countNoSub msgs ∧ tbl.reactions.length = countNoSub msgs ∧
    tbl.replies.length = countNoSub msgs ∧ tbl.replies_to.length = countNoSub msgs ∧
    tbl.ts.length = countNoSub msgs ∧ tbl.links.length = countNoSub msgs ∧
    tbl.link_count.length = countNoSub msgs ∧ tbl.attachments = [] := by
  obtain ⟨i1, i2, i3, i4, i5, i6, i7, i8, i9, i10, i11, i12⟩ :=
    processMsgs_lengths msgs emptyMsgTable tbl h
  refine ⟨?_, ?_, ?_, ?_, ?_, ?_, ?_, ?_, ?_, ?_, ?_, ?_⟩
  · simpa [emptyMsgTable] using i1
  · simpa [emptyMsgTable] using i2
  · simpa [emptyMsgTable] using i3
  · simpa [emptyMsgTable] using i4
  · simpa [emptyMsgTable] using i5
  · simpa [emptyMsgTable] using i6
  · simpa [emptyMsgTable] using i7
  · simpa [emptyMsgTable] using i8
  · simpa [emptyMsgTable] using i9
  · simpa [emptyMsgTable] using i10
  · simpa [emptyMsgTable] using i11
  · simpa [emptyMsgTable] using i12

/-- Witness for C10 on a concrete two-message input, one message of
which carries a subtype. -/
theorem c10_table_wellformed_witness :
    wTblPlain.msg_id.length = countNoSub [wMsgPlain, J.obj [("subtype", J.s "join")]] ∧
    wTblPlain.text.length = countNoSub [wMsgPlain, J.obj [("subtype", J.s "join")]] ∧
    wTblPlain.user.length = countNoSub [wMsgPlain, J.obj [("subtype", J.s "join")]] ∧
    wTblPlain.mentions.length = countNoSub [wMsgPlain, J.obj [("subtype", J.s "join")]] ∧
    wTblPlain.emojis.length = countNoSub [wMsgPlain, J.obj [("subtype", J.s "join")]] ∧
    wTblPlain.reactions.length = countNoSub [wMsgPlain, J.obj [("subtype", J.s "join")]] ∧
    wTblPlain.replies.length = countNoSub [wMsgPlain, J.obj [("subtype", J.s "join")]] ∧
    wTblPlain.replies_to.length = countNoSub [wMsgPlain, J.obj [("subtype", J.s "join")]] ∧
    wTblPlain.ts.length = countNoSub [wMsgPlain, J.obj [("subtype", J.s "join")]] ∧
    wTblPlain.links.length = countNoSub [wMsgPlain, J.obj [("subtype", J.s "join")]] ∧
    wTblPlain.link_count.length = countNoSub [wMsgPlain, J.obj [("subtype", J.s "join")]] ∧
    wTblPlain.attachments = [] :=
  c10_table_wellformed [wMsgPlain, J.obj [("subtype", J.s "join")]] wTblPlain (by decide)

/-- On a dict, a successful membership test guarantees a successful
lookup. -/
theorem jGet_obj_isSome (fs : List (String × J)) (k : String)
    (h : fs.any (fun p => p.1 == k) = true) : ∃ v, jGet k (J.obj fs) = some v := by
  simp only [jGet, dictLookup]
  rw [List.any_eq_true] at h
  obtain ⟨p, hp, hpk⟩ := h
  have hs : (fs.find? (fun p => p.1 == k)).isSome := List.find?_isSome.mpr ⟨p, hp, hpk⟩
  obtain ⟨q, hq⟩ := Option.isSome_iff_exists.mp hs
  exact ⟨q.2, by rw [hq]; rfl⟩

/-- The reactions entry never fails on a dict record. -/
theorem reactEntry_obj_total (fs : List (String × J)) :
    ∃ re, reactEntry (J.obj fs) = some re := by
  simp only [reactEntry, bind, Option.bind_eq_bind', jContains, Option.some_bind]
  cases hr : fs.any (fun p => p.1 == "reactions") with
  | false => exact ⟨J.null, by simp⟩
  | true =>
    obtain ⟨v, hv⟩ := jGet_obj_isSome fs "reactions" hr
    exact ⟨v, by simp [hv]⟩

/-- The replies_to entry never fails on a dict record whose `ts` field
is readable. -/
theorem rtoEntry_obj_total (fs : List (String × J)) (tss : J)
    (hts : jGet "ts" (J.obj fs) = some tss) :
    ∃ rto, rtoEntry (J.obj fs) = some rto := by
  simp only [rtoEntry, bind, Option.bind_eq_bind', jContains, Option.some_bind]
  cases hp : fs.any (fun p => p.1 == "parent_user_id") with
  | false => exact ⟨J.null, by simp⟩
  | true => exact ⟨tss, by simp [hts]⟩

/-- The replies entry never fails on a dict record provided the
`replies` field is readable whenever both thread keys are present. -/
theorem repsEntry_obj_total (fs : List (String × J))
    (hrep : jContains "thread_ts" (J.obj fs) = some true →
      jContains "reply_users" (J.obj fs) = some true →
      (jGet "replies" (J.obj fs)).isSome) :
    ∃ reps, repsEntry (J.obj fs) = some reps := by
  simp only [repsEntry, bind, Option.bind_eq_bind', jContains, Option.some_bind]
  cases ht : fs.any (fun p => p.1 == "thread_ts") with
  | false => exact ⟨J.null, by simp⟩
  | true =>
    cases hru : fs.any (fun p => p.1 == "reply_users") with
    | false => exact ⟨J.null, by simp⟩
    | true =>
      have hs := hrep (by simp [jContains, ht]) (by simp [jContains, hru])
      obtain ⟨v, hv⟩ := Option.isSome_iff_exists.mp hs
      exact ⟨v, by simp [hv]⟩

/-- C5 counterexample: the empty record carries no `subtype` key, yet
the extractor raises (a KeyError on the `text` field) instead of
producing a row of defaults, so the claim that extraction never raises
on subtype-less records fails. -/
theorem c5_counterexample :
    jContains "subtype" (J.obj []) = some false ∧
    get_messages_dict [J.obj []] = none := by decide

/-- C5 amended: on a dict record without a `subtype` key whose `text`,
`user` and `ts` fields are present, whose `replies` field is present
whenever both `thread_ts` and `reply_users` are, and which carries no
`blocks` key, extraction never raises, and each missing optional field
falls back to null (identifier, reactions, parent pointer, thread
replies) or to the empty defaults (mention, emoji and link entries,
zero link count). -/
theorem c5_missing_fields_default (t : MsgTable) (fs : List (String × J)) (tx us tss : J)
    (hsub : jContains "subtype" (J.obj fs) = some false)
    (htx : jGet "text" (J.obj fs) = some tx)
    (hus : jGet "user" (J.obj fs) = some us)
    (htss : jGet "ts" (J.obj fs) = some tss)
    (hrep : jContains "thread_ts" (J.obj fs) = some true →
      jContains "reply_users" (J.obj fs) = some true →
      (jGet "replies" (J.obj fs)).isSome)
    (hblocks : jContains "blocks" (J.obj fs) = some false) :
    ∃ t', processMsg t (J.obj fs) = some t' ∧
      (jGet "client_msg_id" (J.obj fs) = none → t'.msg_id = t.msg_id ++ [J.null]) ∧
      (jContains "reactions" (J.obj fs) = some false →
        t'.reactions = t.reactions ++ [J.null]) ∧
      (jContains "parent_user_id" (J.obj fs) = some false →
        t'.replies_to = t.replies_to ++ [J.null]) ∧
      (jContains "thread_ts" (J.obj fs) = some false →
        t'.replies = t.replies ++ [J.null]) ∧
      t'.mentions = t.mentions ++ [none] ∧ t'.emojis = t.emojis ++ [none] ∧
      t'.links = t.links ++ [none] ∧ t'.link_count = t.link_count ++ [0] := by
  obtain ⟨re, hre⟩ := reactEntry_obj_total fs
  obtain ⟨rto, hrto⟩ := rtoEntry_obj_total fs tss htss
  obtain ⟨reps, hreps⟩ := repsEntry_obj_total fs hrep
  refine ⟨{ msg_id := t.msg_id ++ [(jGet "client_msg_id" (J.obj fs)).getD J.null],
            text := t.text ++ [tx], attachments := t.attachments, user := t.user ++ [us],
            mentions := t.mentions ++ [none], emojis := t.emojis ++ [none],
            reactions := t.reactions ++ [re], replies := t.replies ++ [reps],
            replies_to := t.replies_to ++ [rto], ts := t.ts ++ [tss],
            links := t.links ++ [none], link_count := t.link_count ++ [0] },
    ?_, ?_, ?_, ?_, ?_, rfl, rfl, rfl, rfl⟩
  · simp only [processMsg, hsub, bind, Option.bind_eq_bind', Option.some_bind,
      Bool.false_eq_true, reduceIte, htx, hus, htss, hre, hrto, hreps, hblocks,
      Option.pure_def]
  · intro hc
    simp [hc]
  · intro hcr
    have h0 : reactEntry (J.obj fs) = some J.null := by
      simp only [reactEntry, bind, Option.bind_eq_bind', hcr, Option.some_bind,
        Bool.false_eq_true, reduceIte, Option.pure_def]
    rw [hre] at h0
    obtain rfl := Option.some_inj.mp h0
    rfl
  · intro hcp
    have h0 : rtoEntry (J.obj fs) = some J.null := by
      simp only [rtoEntry, bind, Option.bind_eq_bind', hcp, Option.some_bind,
        Bool.false_eq_true, reduceIte, Option.pure_def]
    rw [hrto] at h0
    obtain rfl := Option.some_inj.mp h0
    rfl
  · intro hct
    have h0 : repsEntry (J.obj fs) = some J.null := by
      simp only [repsEntry, bind, Option.bind_eq_bind', hct, Option.some_bind,
        Bool.false_eq_true, reduceIte, Option.pure_def, Bool.false_and]
    rw [hreps] at h0
    obtain rfl := Option.some_inj.mp h0
    rfl

/-- Witness for the amended C5 at a concrete record carrying only the
required fields. -/
theorem c5_missing_fields_default_witness :
    ∃ t', processMsg emptyMsgTable
        (J.obj [("text", J.s "m"), ("user", J.s "U7"), ("ts", J.s "9.0")]) = some t' ∧
      (jGet "client_msg_id" (J.obj [("text", J.s "m"), ("user", J.s "U7"), ("ts", J.s "9.0")]) = none →
        t'.msg_id = emptyMsgTable.msg_id ++ [J.null]) ∧
      (jContains "reactions" (J.obj [("text", J.s "m"), ("user", J.s "U7"), ("ts", J.s "9.0")]) = some false →
        t'.reactions = emptyMsgTable.reactions ++ [J.null]) ∧
      (jContains "parent_user_id" (J.obj [("text", J.s "m"), ("user", J.s "U7"), ("ts", J.s "9.0")]) = some false →
        t'.replies_to = emptyMsgTable.replies_to ++ [J.null]) ∧
      (jContains "thread_ts" (J.obj [("text", J.s "m"), ("user", J.s "U7"), ("ts", J.s "9.0")]) = some false →
        t'.replies = emptyMsgTable.replies ++ [J.null]) ∧
      t'.mentions = emptyMsgTable.mentions ++ [none] ∧
      t'.emojis = emptyMsgTable.emojis ++ [none] ∧
      t'.links = emptyMsgTable.links ++ [none] ∧
      t'.link_count = emptyMsgTable.link_count ++ [0] :=
  c5_missing_fields_default emptyMsgTable
    [("text", J.s "m"), ("user", J.s "U7"), ("ts", J.s "9.0")]
    (J.s "m") (J.s "U7") (J.s "9.0")
    (by decide) (by decide) (by decide) (by decide) (by decide) (by decide)

/-- Membership in the first-occurrence deduplication. -/
theorem mem_dedupGo (xs : List J) : ∀ seen u,
    u ∈ dedupGo seen xs ↔ u ∈ xs ∧ u ∉ seen := by
  induction xs with
  | nil => intro seen u; simp [dedupGo]
  | cons x rest ih =>
    intro seen u
    simp only [dedupGo]
    by_cases hx : x ∈ seen
    · rw [if_pos (List.elem_eq_true_of_mem hx)]
      rw [ih]
      simp only [List.mem_cons]
      constructor
      · rintro ⟨hu, hns⟩; exact ⟨Or.inr hu, hns⟩
      · rintro ⟨hu | hu, hns⟩
        · exact absurd (hu ▸ hx) hns
        · exact ⟨hu, hns⟩
    · rw [if_neg (fun hc => hx (List.mem_of_elem_eq_true hc))]
      simp only [List.mem_cons, ih]
      constructor
      · rintro (rfl | ⟨hu, hns⟩)
        · exact ⟨Or.inl rfl, hx⟩
        · exact ⟨Or.inr hu, fun hs => hns (Or.inr hs)⟩
      · rintro ⟨rfl | hu, hns⟩
        · exact Or.inl rfl
        · by_cases hux : u = x
          · exact Or.inl hux
          · exact Or.inr ⟨hu, fun hs => hs.elim hux hns⟩

/-- Looking up a key in a table of pairs `(k, f k)` returns `f` at the
key when the key occurs. -/
theorem dictLookup_map_self (l : List J) (f : J → Nat) (u : J) :
    dictLookup (l.map fun k => (k, f k)) u = if u ∈ l then some (f u) else none := by
  induction l with
  | nil => simp [dictLookup]
  | cons k ks ih =>
    simp only [List.map_cons, dictLookup, List.find?_cons]
    by_cases hk : k = u
    · subst hk
      simp
    · have : (k == u) = false := by simp [hk]
      simp only [this, List.mem_cons]
      rw [← dictLookup]
      rw [ih]
      by_cases hu : u ∈ ks
      · rw [if_pos hu, if_pos (Or.inr hu)]
      · rw [if_neg hu, if_neg (by rintro (rfl | h) <;> [exact hk rfl; exact hu h])]

/-- The count dictionary `dict(Counter(xs))` maps every value to its
number of occurrences in `xs` (zero meaning no entry). -/
theorem counterList_lookup (xs : List J) (u : J) :
    (dictLookup (counterList xs) u).getD 0 = xs.count u := by
  unfold counterList dedupFirst
  rw [dictLookup_map_self]
  by_cases hu : u ∈ dedupGo [] xs
  · rw [if_pos hu]; rfl
  · rw [if_neg hu]
    have hnx : u ∉ xs := by
      intro hx
      exact hu ((mem_dedupGo xs [] u).mpr ⟨hx, by simp⟩)
    simp [List.count_eq_zero.mpr hnx]

/-- Flattening the replies column concatenates the iterations of its
non-null entries, so occurrence counts add up entry by entry. -/
theorem repliesFlat_count (col : List J) : ∀ flat, repliesFlat col = some flat →
    ∀ u, flat.count u = colOccs u col := by
  induction col with
  | nil =>
    intro flat h u
    simp only [repliesFlat, Option.some_inj] at h
    subst h
    simp [colOccs]
  | cons r rs ih =>
    intro flat h u
    by_cases hr : r = J.null
    · rw [repliesFlat, if_pos hr] at h
      have := ih flat h u
      simp [colOccs, entryOccs, hr] at this ⊢
      exact this
    · rw [repliesFlat, if_neg hr] at h
      simp only [bind, Option.bind_eq_bind'] at h
      rw [Option.bind_eq_some] at h
      obtain ⟨us, hus, h⟩ := h
      rw [Option.bind_eq_some] at h
      obtain ⟨rest, hrest, h⟩ := h
      simp only [Option.pure_def, Option.some_inj] at h
      subst h
      rw [List.count_append, ih rest hrest u]
      simp [colOccs, entryOccs, hr, hus]

/-- C3: for every table on which it is defined, the aggregated reply
count of each user identifier equals the number of times that
identifier occurs as an element across all non-null entries of the
replies column. -/
theorem c3_reply_counts (tbl : MsgTable) (cnt : List (J × Nat))
    (h : replies_count_dict tbl = some cnt) (u : J) :
    (dictLookup cnt u).getD 0 = colOccs u tbl.replies := by
  simp only [replies_count_dict, bind, Option.bind_eq_bind'] at h
  rw [Option.bind_eq_some] at h
  obtain ⟨flat, hflat, h⟩ := h
  have hcnt : cnt = counterList flat := by
    by_cases hh : flat.all hashableJ <;> simp [hh] at h
    exact h.symm
  subst hcnt
  rw [counterList_lookup]
  exact repliesFlat_count tbl.replies flat hflat u

/-- A concrete table with a two-entry replies column, one entry null. -/
def wTblReplies : MsgTable :=
  ⟨[], [], [], [], [], [], [], [J.arr [J.s "U1", J.s "U2", J.s "U1"], J.null], [], [], [], []⟩

/-- Witness for C3 at a concrete replies column. -/
theorem c3_reply_counts_witness :
    (dictLookup [(J.s "U1", 2), (J.s "U2", 1)] (J.s "U1")).getD 0 =
      colOccs (J.s "U1") wTblReplies.replies :=
  c3_reply_counts wTblReplies [(J.s "U1", 2), (J.s "U2", 1)] (by decide) (J.s "U1")

/-- Whether a membership test is defined depends only on the shape of
the record, not on the key. -/
theorem jContains_isSome_congr (v : J) (k k' : String) :
    (jContains k v).isSome = (jContains k' v).isSome := by
  cases v <;> simp [jContains]

/-- The try-protected loop keeps exactly the longest prefix of replies
it can process, each tagged by `replyStep`. -/
theorem replyGo_eq_takeWhile (msg : J) (rs : List J) :
    replyGo msg rs =
      (rs.takeWhile (fun r => (replyStep msg r).isSome)).filterMap (replyStep msg) := by
  induction rs with
  | nil => rfl
  | cons r rest ih =>
    simp only [replyGo, List.takeWhile_cons]
    cases hr : replyStep msg r with
    | none => simp [hr]
    | some r2 => simp [hr, List.filterMap_cons, ih]

/-- C4 counterexample: on a record whose reply list fails partway (the
second reply is an integer and cannot take item assignment), the
extractor returns the successfully processed first reply — a non-empty
partial result — not the empty list the claim requires. -/
theorem c4_counterexample :
    from_msg_get_replies (J.obj [("thread_ts", J.s "t"), ("client_msg_id", J.s "c"),
      ("replies", J.arr [J.obj [], J.n 5])]) =
      some [J.obj [("thread_ts", J.s "t"), ("message_id", J.s "c")]] ∧
    replyStep (J.obj [("thread_ts", J.s "t"), ("client_msg_id", J.s "c"),
      ("replies", J.arr [J.obj [], J.n 5])]) (J.n 5) = none := by decide

/-- C4 amended: whenever the membership tests on the record are defined,
the reply extractor returns without raising; it yields the empty list
when the thread marker or the reply list is absent or when the reply
list is not iterable, and when processing fails partway it yields the
longest successfully processed prefix of the replies (possibly
non-empty) rather than an empty result or an exception. -/
theorem c4_reply_extractor_prefix (msg : J)
    (hdef : (jContains "thread_ts" msg).isSome) :
    ∃ l, from_msg_get_replies msg = some l ∧
      ((jContains "thread_ts" msg = some false ∨
        jContains "replies" msg = some false) → l = []) ∧
      (jContains "thread_ts" msg = some true → jContains "replies" msg = some true →
        (∀ rl, jGet "replies" msg = some rl → jIter rl = none → l = []) ∧
        (∀ rl rs, jGet "replies" msg = some rl → jIter rl = some rs →
          l = (rs.takeWhile (fun r => (replyStep msg r).isSome)).filterMap (replyStep msg))) := by
  obtain ⟨b1, hb1⟩ := Option.isSome_iff_exists.mp hdef
  have hdef2 : (jContains "replies" msg).isSome := by
    rw [← jContains_isSome_congr msg "thread_ts" "replies"]
    exact hdef
  obtain ⟨b2, hb2⟩ := Option.isSome_iff_exists.mp hdef2
  cases b1 with
  | false =>
    refine ⟨[], ?_, fun _ => rfl, fun hcon _ => ?_⟩
    · simp [from_msg_get_replies, hb1]
    · rw [hb1] at hcon
      exact absurd (Option.some_inj.mp hcon) (by simp)
  | true =>
    cases b2 with
    | false =>
      refine ⟨[], ?_, fun _ => rfl, fun _ hcon => ?_⟩
      · simp [from_msg_get_replies, hb1, hb2]
      · rw [hb2] at hcon
        exact absurd (Option.some_inj.mp hcon) (by simp)
    | true =>
      cases hrl : jGet "replies" msg with
      | none =>
        refine ⟨[], ?_, fun _ => rfl, fun _ _ => ⟨fun _ _ _ => rfl, fun rl2 rs hrl2 _ => ?_⟩⟩
        · simp [from_msg_get_replies, hb1, hb2, hrl]
        · exact absurd hrl2 (by simp)
      | some rl =>
        cases hrs : jIter rl with
        | none =>
          refine ⟨[], ?_, fun _ => rfl, fun _ _ => ⟨fun _ _ _ => rfl, fun rl2 rs hrl2 hrs2 => ?_⟩⟩
          · simp [from_msg_get_replies, hb1, hb2, hrl, hrs]
          · obtain rfl := Option.some_inj.mp hrl2
            exact absurd hrs2 (by simp [hrs])
        | some rs =>
          refine ⟨replyGo msg rs, ?_, ?_, fun _ _ => ⟨?_, ?_⟩⟩
          · simp [from_msg_get_replies, hb1, hb2, hrl, hrs]
          · rintro (hcon | hcon)
            · rw [hb1] at hcon
              exact absurd (Option.some_inj.mp hcon) (by simp)
            · rw [hb2] at hcon
              exact absurd (Option.some_inj.mp hcon) (by simp)
          · intro rl2 hrl2 hit
            obtain rfl := Option.some_inj.mp hrl2
            exact absurd hit (by simp [hrs])
          · intro rl2 rs2 hrl2 hrs2
            obtain rfl := Option.some_inj.mp hrl2
            rw [hrs] at hrs2
            obtain rfl := Option.some_inj.mp hrs2
            exact replyGo_eq_takeWhile msg rs

/-- A concrete record whose reply list fails partway through
processing. -/
def wMsgReplies : J := J.obj [("thread_ts", J.s "t"), ("client_msg_id", J.s "c"),
  ("replies", J.arr [J.obj [], J.n 5])]

/-- Witness for the amended C4 at a concrete record. -/
theorem c4_reply_extractor_prefix_witness :
    ∃ l, from_msg_get_replies wMsgReplies = some l ∧
      ((jContains "thread_ts" wMsgReplies = some false ∨
        jContains "replies" wMsgReplies = some false) → l = []) ∧
      (jContains "thread_ts" wMsgReplies = some true →
        jContains "replies" wMsgReplies = some true →
        (∀ rl, jGet "replies" wMsgReplies = some rl → jIter rl = none → l = []) ∧
        (∀ rl rs, jGet "replies" wMsgReplies = some rl → jIter rl = some rs →
          l = (rs.takeWhile (fun r => (replyStep wMsgReplies r).isSome)).filterMap
            (replyStep wMsgReplies))) :=
  c4_reply_extractor_prefix wMsgReplies (by decide)

/-- Every entry of a dict after an assignment is the assigned pair or
came from the dict before. -/
theorem mem_dictSet {κ α : Type} [BEq κ] (m : List (κ × α)) (k : κ) (v : α)
    (q : κ × α) (h : q ∈ dictSet m k v) : q = (k, v) ∨ q ∈ m := by
  unfold dictSet at h
  by_cases ha : m.any (fun p => p.1 == k) = true
  · rw [if_pos ha] at h
    obtain ⟨p, hp, hq⟩ := List.mem_map.mp h
    by_cases hk : p.1 == k
    · rw [if_pos hk] at hq; exact Or.inl hq.symm
    · rw [if_neg hk] at hq; exact Or.inr (hq ▸ hp)
  · rw [if_neg ha] at h
    rcases List.mem_append.mp h with hq | hq
    · exact Or.inr hq
    · exact Or.inl (List.mem_singleton.mp hq)

/-- Every entry accumulated by the re-keying loop stems from an
identifier the directory resolves, with its count taken from the
processed mapping. -/
theorem buildAcComm_sound (ud : List (J × J)) (cd : List (J × Int)) :
    ∀ acc p, p ∈ buildAcComm ud acc cd →
      (∃ i, dictLookup ud i = some p.1 ∧ (i, p.2) ∈ cd) ∨ p ∈ acc := by
  induction cd with
  | nil =>
    intro acc p h
    simp only [buildAcComm] at h
    exact Or.inr h
  | cons q rest ih =>
    intro acc p h
    simp only [buildAcComm] at h
    cases hq : dictLookup ud q.1 with
    | none =>
      rw [hq] at h
      rcases ih acc p h with ⟨i, hi, hic⟩ | hp
      · exact Or.inl ⟨i, hi, List.mem_cons_of_mem _ hic⟩
      · exact Or.inr hp
    | some nm =>
      rw [hq] at h
      rcases ih (dictSet acc nm q.2) p h with ⟨i, hi, hic⟩ | hp
      · exact Or.inl ⟨i, hi, List.mem_cons_of_mem _ hic⟩
      · rcases mem_dictSet acc nm q.2 p hp with rfl | hp2
        · exact Or.inl ⟨q.1, hq, List.mem_cons_self _ _⟩
        · exact Or.inr hp2

/-- Inserting into a descending list permutes consing. -/
theorem insertDesc_perm (x : J × Int) (l : List (J × Int)) :
    (insertDesc x l).Perm (x :: l) := by
  induction l with
  | nil => exact List.Perm.refl _
  | cons y ys ih =>
    simp only [insertDesc]
    by_cases h : y.2 < x.2
    · rw [if_pos h]
    · rw [if_neg h]
      exact (ih.cons y).trans (List.Perm.swap x y ys)

/-- The descending sort permutes its input. -/
theorem sortDesc_perm (l : List (J × Int)) : (sortDesc l).Perm l := by
  induction l with
  | nil => exact List.Perm.refl _
  | cons x xs ih => exact (insertDesc_perm x (sortDesc xs)).trans (ih.cons x)

/-- A cons is descending precisely when its tail is and its head
dominates the next entry. -/
theorem sortedDescB_cons (y : J × Int) (l : List (J × Int)) :
    sortedDescB (y :: l) = true ↔
      sortedDescB l = true ∧ ∀ z, l.head? = some z → z.2 ≤ y.2 := by
  cases l with
  | nil => simp [sortedDescB]
  | cons z zs =>
    simp only [sortedDescB, Bool.and_eq_true, decide_eq_true_eq, List.head?_cons,
      Option.some_inj]
    constructor
    · rintro ⟨hz, hs⟩
      exact ⟨hs, fun w hw => hw ▸ hz⟩
    · rintro ⟨hs, hw⟩
      exact ⟨hw z rfl, hs⟩

/-- The head of an insertion is the inserted element or the old head. -/
theorem insertDesc_head? (x : J × Int) (l : List (J × Int)) (z : J × Int)
    (h : (insertDesc x l).head? = some z) : z = x ∨ l.head? = some z := by
  cases l with
  | nil =>
    simp only [insertDesc, List.head?_cons, Option.some_inj] at h
    exact Or.inl h.symm
  | cons y ys =>
    simp only [insertDesc] at h
    by_cases hyx : y.2 < x.2
    · rw [if_pos hyx] at h
      simp only [List.head?_cons, Option.some_inj] at h
      exact Or.inl h.symm
    · rw [if_neg hyx] at h
      simp only [List.head?_cons, Option.some_inj] at h
      exact Or.inr (by simp [h])

/-- Insertion preserves descending order. -/
theorem insertDesc_sorted (x : J × Int) : ∀ l, sortedDescB l = true →
    sortedDescB (insertDesc x l) = true := by
  intro l
  induction l with
  | nil => intro _; rfl
  | cons y ys ih =>
    intro h
    obtain ⟨hys, hhead⟩ := (sortedDescB_cons y ys).mp h
    simp only [insertDesc]
    by_cases hyx : y.2 < x.2
    · rw [if_pos hyx]
      exact (sortedDescB_cons x (y :: ys)).mpr
        ⟨h, fun z hz => by
          simp only [List.head?_cons, Option.some_inj] at hz
          subst hz
          exact le_of_lt hyx⟩
    · rw [if_neg hyx]
      refine (sortedDescB_cons y (insertDesc x ys)).mpr ⟨ih hys, fun z hz => ?_⟩
      rcases insertDesc_head? x ys z hz with rfl | hz2
      · exact le_of_not_lt hyx
      · exact hhead z hz2

/-- The descending sort produces a descending list. -/
theorem sortDesc_sorted (l : List (J × Int)) : sortedDescB (sortDesc l) = true := by
  induction l with
  | nil => rfl
  | cons x xs ih => exact insertDesc_sorted x (sortDesc xs) ih

/-- C8: given a successfully built directory, resolving any count
mapping never raises, and every row of the output stems from an
identifier the directory resolves, with its count taken from the input
mapping; an identifier absent from the directory contributes no row. -/
theorem c8_absent_identifiers_dropped (up : UserProfile) (cd : List (J × Int))
    (ud : List (J × J)) (hud : buildUserDict up = some ud) :
    ∃ out, map_userid_2_realname up cd = some out ∧
      ∀ p ∈ out, ∃ i, dictLookup ud i = some p.1 ∧ (i, p.2) ∈ cd := by
  refine ⟨sortDesc (buildAcComm ud [] cd), ?_, ?_⟩
  · simp [map_userid_2_realname, bind, Option.bind_eq_bind', hud]
  · intro p hp
    have hp2 : p ∈ buildAcComm ud [] cd :=
      (sortDesc_perm (buildAcComm ud [] cd)).mem_iff.mp hp
    rcases buildAcComm_sound ud cd [] p hp2 with ⟨i, hi, hic⟩ | hfalse
    · exact ⟨i, hi, hic⟩
    · exact absurd hfalse (List.not_mem_nil p)

/-- A concrete profile dataset naming one identifier. -/
def wProfile : UserProfile :=
  ⟨[(0, J.obj [("real_name", J.s "Alice")])], [J.s "U1"]⟩

/-- Witness for C8: a count mapping holding an identifier the directory
lacks. -/
theorem c8_absent_identifiers_dropped_witness :
    ∃ out, map_userid_2_realname wProfile [(J.s "U1", 3), (J.s "U2", 5)] = some out ∧
      ∀ p ∈ out, ∃ i, dictLookup [(J.s "U1", J.s "Alice")] i = some p.1 ∧
        (i, p.2) ∈ ([(J.s "U1", 3), (J.s "U2", 5)] : List (J × Int)) :=
  c8_absent_identifiers_dropped wProfile [(J.s "U1", 3), (J.s "U2", 5)]
    [(J.s "U1", J.s "Alice")] (by decide)

/-- C9 counterexample: with a directory resolving only `U1`, the count
of `U2` is silently dropped, so the output (a single row) is not the
input count mapping (two entries) re-keyed by display name. -/
theorem c9_counterexample :
    map_userid_2_realname wProfile [(J.s "U1", 3), (J.s "U2", 5)] =
      some [(J.s "Alice", 3)] ∧
    ([(J.s "U1", 3), (J.s "U2", 5)] : List (J × Int)).map
      (fun p => (dictLookup [(J.s "U1", J.s "Alice")] p.1, p.2)) =
      [(some (J.s "Alice"), 3), (none, 5)] := by decide

/-- When every processed identifier resolves, to a name neither already
accumulated nor shared with another processed identifier, the re-keying
loop appends exactly the re-keyed pairs in input order. -/
theorem buildAcComm_rekey (ud : List (J × J)) (cd : List (J × Int)) :
    ∀ acc,
      (∀ p ∈ cd, (dictLookup ud p.1).isSome) →
      (∀ p ∈ cd, ∀ q ∈ acc, q.1 ≠ (dictLookup ud p.1).getD J.null) →
      (∀ p ∈ cd, ∀ p' ∈ cd, dictLookup ud p.1 = dictLookup ud p'.1 → p.1 = p'.1) →
      (cd.map Prod.fst).Nodup →
      buildAcComm ud acc cd =
        acc ++ cd.map (fun p => ((dictLookup ud p.1).getD J.null, p.2)) := by
  induction cd with
  | nil => intro acc _ _ _ _; simp [buildAcComm]
  | cons p rest ih =>
    intro acc hpres hfresh hinj hnodup
    obtain ⟨nm, hnm⟩ := Option.isSome_iff_exists.mp (hpres p (List.mem_cons_self p rest))
    have hgetd : (dictLookup ud p.1).getD J.null = nm := by rw [hnm]; rfl
    simp only [buildAcComm, hnm]
    have hset : dictSet acc nm p.2 = acc ++ [(nm, p.2)] := by
      unfold dictSet
      rw [if_neg ?_]
      intro ha
      obtain ⟨q, hq, hqk⟩ := List.any_eq_true.mp ha
      exact hfresh p (List.mem_cons_self p rest) q hq
        (by rw [hgetd]; exact beq_iff_eq.mp hqk)
    rw [List.map_cons] at hnodup
    obtain ⟨hpmem, hnodup2⟩ := List.nodup_cons.mp hnodup
    rw [hset, ih (acc ++ [(nm, p.2)])
      (fun p' hp' => hpres p' (List.mem_cons_of_mem _ hp'))
      (fun p' hp' q hq => by
        rcases List.mem_append.mp hq with hqa | hqn
        · exact hfresh p' (List.mem_cons_of_mem _ hp') q hqa
        · obtain rfl := List.mem_singleton.mp hqn
          simp only [ne_eq]
          intro hcon
          obtain ⟨nm', hnm'⟩ := Option.isSome_iff_exists.mp
            (hpres p' (List.mem_cons_of_mem _ hp'))
          rw [hnm'] at hcon
          simp only [Option.getD_some] at hcon
          subst hcon
          have heq : dictLookup ud p'.1 = dictLookup ud p.1 := by rw [hnm', hnm]
          have := hinj p' (List.mem_cons_of_mem _ hp') p (List.mem_cons_self p rest) heq
          exact hpmem (this ▸ List.mem_map_of_mem Prod.fst hp'))
      (fun p' hp' p'' hp'' =>
        hinj p' (List.mem_cons_of_mem _ hp') p'' (List.mem_cons_of_mem _ hp''))
      hnodup2]
    simp only [List.map_cons, hgetd, List.append_assoc, List.singleton_append]

/-- C9 amended: provided every counted identifier is present in the
directory and the directory assigns distinct display names to distinct
counted identifiers, the resolver output is exactly the input counts
re-keyed by display name, as a list sorted in descending count order. -/
theorem c9_rekeyed_sorted (up : UserProfile) (cd : List (J × Int)) (ud : List (J × J))
    (hud : buildUserDict up = some ud)
    (hpres : ∀ p ∈ cd, (dictLookup ud p.1).isSome)
    (hinj : ∀ p ∈ cd, ∀ p' ∈ cd, dictLookup ud p.1 = dictLookup ud p'.1 → p.1 = p'.1)
    (hnodup : (cd.map Prod.fst).Nodup) :
    ∃ out, map_userid_2_realname up cd = some out ∧
      out.Perm (cd.map (fun p => ((dictLookup ud p.1).getD J.null, p.2))) ∧
      sortedDescB out = true := by
  refine ⟨sortDesc (buildAcComm ud [] cd), ?_, ?_, sortDesc_sorted _⟩
  · simp [map_userid_2_realname, bind, Option.bind_eq_bind', hud]
  · rw [buildAcComm_rekey ud cd [] hpres
      (fun _ _ q hq => absurd hq (List.not_mem_nil q)) hinj hnodup]
    simpa using sortDesc_perm _

/-- A concrete profile dataset naming two identifiers. -/
def wProfile2 : UserProfile :=
  ⟨[(0, J.obj [("real_name", J.s "Alice")]), (1, J.obj [("real_name", J.s "Bob")])],
   [J.s "U1", J.s "U2"]⟩

/-- Witness for the amended C9 at a concrete dataset where both counted
identifiers resolve to distinct names. -/
theorem c9_rekeyed_sorted_witness :
    ∃ out, map_userid_2_realname wProfile2 [(J.s "U1", 3), (J.s "U2", 7)] = some out ∧
      out.Perm (([(J.s "U1", 3), (J.s "U2", 7)] : List (J × Int)).map
        (fun p => ((dictLookup [(J.s "U1", J.s "Alice"), (J.s "U2", J.s "Bob")] p.1).getD J.null, p.2))) ∧
      sortedDescB out = true :=
  c9_rekeyed_sorted wProfile2 [(J.s "U1", 3), (J.s "U2", 7)]
    [(J.s "U1", J.s "Alice"), (J.s "U2", J.s "Bob")]
    (by decide) (by decide) (by decide) (by decide)

set_option maxHeartbeats 2000000 in
/-- The civil year computed for any day count between 1000-01-01 and
9999-12-31 lies between 1000 and 9999. -/
theorem civil_year_bounds (z : Int) (h1 : -354285 ≤ z) (h2 : z ≤ 2932896) :
    1000 ≤ (civilFromDays z).1 ∧ (civilFromDays z).1 ≤ 9999 := by
  unfold civilFromDays
  dsimp only
  set z1 := z + 719468 with hz1
  set era := z1 / 146097 with hera
  set doe := z1 - era * 146097 with hdoe
  set a := doe / 1460 with ha
  set b := doe / 36524 with hb
  set c := doe / 146096 with hc
  set num := doe - a + b - c with hnum
  set yoe := num / 365 with hyoe
  set doy := doe - (365 * yoe + yoe / 4 - yoe / 100) with hdoy
  set mp := (5 * doy + 2) / 153 with hmp
  have e1 := Int.ediv_add_emod z1 146097
  have e1a := Int.emod_nonneg z1 (show (146097 : Int) ≠ 0 by norm_num)
  have e1b := Int.emod_lt_of_pos z1 (show (0 : Int) < 146097 by norm_num)
  have e2 := Int.ediv_add_emod doe 1460
  have e2a := Int.emod_nonneg doe (show (1460 : Int) ≠ 0 by norm_num)
  have e2b := Int.emod_lt_of_pos doe (show (0 : Int) < 1460 by norm_num)
  have e3 := Int.ediv_add_emod doe 36524
  have e3a := Int.emod_nonneg doe (show (36524 : Int) ≠ 0 by norm_num)
  have e3b := Int.emod_lt_of_pos doe (show (0 : Int) < 36524 by norm_num)
  have e4 := Int.ediv_add_emod doe 146096
  have e4a := Int.emod_nonneg doe (show (146096 : Int) ≠ 0 by norm_num)
  have e4b := Int.emod_lt_of_pos doe (show (0 : Int) < 146096 by norm_num)
  have e5 := Int.ediv_add_emod num 365
  have e5a := Int.emod_nonneg num (show (365 : Int) ≠ 0 by norm_num)
  have e5b := Int.emod_lt_of_pos num (show (0 : Int) < 365 by norm_num)
  have e6 := Int.ediv_add_emod yoe 4
  have e6a := Int.emod_nonneg yoe (show (4 : Int) ≠ 0 by norm_num)
  have e6b := Int.emod_lt_of_pos yoe (show (0 : Int) < 4 by norm_num)
  have e7 := Int.ediv_add_emod yoe 100
  have e7a := Int.emod_nonneg yoe (show (100 : Int) ≠ 0 by norm_num)
  have e7b := Int.emod_lt_of_pos yoe (show (0 : Int) < 100 by norm_num)
  have e8 := Int.ediv_add_emod (5 * doy + 2) 153
  have e8a := Int.emod_nonneg (5 * doy + 2) (show (153 : Int) ≠ 0 by norm_num)
  have e8b := Int.emod_lt_of_pos (5 * doy + 2) (show (0 : Int) < 153 by norm_num)
  by_cases hb4 : b = 4
  · by_cases hmp10 : mp < 10
    · simp only [if_pos hmp10]
      constructor <;> split <;> (by_cases h9 : yoe = 199 <;> by_cases h8 : yoe = 399 <;> omega)
    · simp only [if_neg hmp10]
      constructor <;> split <;> (by_cases h9 : yoe = 199 <;> by_cases h8 : yoe = 399 <;> omega)
  · by_cases hmp10 : mp < 10
    · simp only [if_pos hmp10]
      constructor <;> split <;> (by_cases h9 : yoe = 199 <;> by_cases h8 : yoe = 399 <;> omega)
    · simp only [if_neg hmp10]
      constructor <;> split <;> (by_cases h9 : yoe = 199 <;> by_cases h8 : yoe = 399 <;> omega)

/-- Digit characters of the decimal digits are digits. -/
theorem digitChar_isDigit : ∀ k < 10, (Nat.digitChar k).isDigit = true := by decide

/-- The digit character of any remainder modulo ten is a digit. -/
theorem digitChar_mod_isDigit (k : Nat) : (Nat.digitChar (k % 10)).isDigit = true :=
  digitChar_isDigit (k % 10) (Nat.mod_lt k (by norm_num))

/-- The formatted string of any timestamp whose year has four digits has
the shape `YYYY-MM-DD HH:MM:SS`. -/
theorem tsShape_strftime (y m d h mi s : Int) (h1 : 1000 ≤ y) (h2 : y ≤ 9999) :
    tsShape (strftimeYmdHMS y m d h mi s) = true := by
  have hn1 : ¬ y.toNat < 10 := by omega
  have hn2 : ¬ y.toNat < 100 := by omega
  have hn3 : ¬ y.toNat < 1000 := by omega
  simp only [strftimeYmdHMS, yearChars, pad2]
  rw [if_neg hn1, if_neg hn2, if_neg hn3]
  simp only [List.cons_append, List.nil_append, tsShape]
  simp [digitChar_mod_isDigit]

/-- Every non-zero epoch between 1000-01-01 and 9999-12-31 converts to a
string of shape `YYYY-MM-DD HH:MM:SS`. -/
theorem convertEntry_shape (t : Int) (h0 : ¬ t = 0)
    (hlo : -30610224000 ≤ t) (hhi : t ≤ 253402300799) :
    ∃ str, convertEntry t = some (J.s str) ∧ tsShape str = true := by
  have hz1 : -354285 ≤ t / 86400 := by omega
  have hz2 : t / 86400 ≤ 2932896 := by omega
  obtain ⟨hy1, hy2⟩ := civil_year_bounds (t / 86400) hz1 hz2
  refine ⟨strftimeYmdHMS (civilFromDays (t / 86400)).1 (civilFromDays (t / 86400)).2.1
      (civilFromDays (t / 86400)).2.2 (t % 86400 / 3600) (t % 86400 / 60 % 60)
      (t % 86400 % 60),
    ?_, tsShape_strftime _ _ _ _ _ _ (by omega) hy2⟩
  simp only [convertEntry, if_neg h0, fromtimestampUTC]
  rw [if_pos ⟨by omega, hy2⟩]
  rfl

/-- C6 counterexample: a numeric epoch whose civil year exceeds 9999
makes `datetime.fromtimestamp` raise (year out of range), so the
formatter raises on the whole column instead of producing a string for
that entry, refuting the claim for every non-zero numeric value. -/
theorem c6_counterexample :
    convert_2_timestamp "ts" [("ts", [1000000000000])] = none := by decide

/-- C6 amended: on a column whose entries are either zero or epochs
within the formatter range (years 1000 to 9999), conversion succeeds,
preserves the column length and order, maps 0 to the integer 0
unchanged, and maps every other entry to a string of the form
`YYYY-MM-DD HH:MM:SS`.  Epochs outside the supported range raise
instead. -/
theorem c6_timestamp_format (col : List Int)
    (hrange : ∀ t ∈ col, t = 0 ∨ (-30610224000 ≤ t ∧ t ≤ 253402300799)) :
    ∃ out, convertColumn col = some out ∧ out.length = col.length ∧
      ∀ i (hi : i < col.length) (ho : i < out.length),
        (col.get ⟨i, hi⟩ = 0 → out.get ⟨i, ho⟩ = J.n 0) ∧
        (¬ col.get ⟨i, hi⟩ = 0 →
          ∃ str, out.get ⟨i, ho⟩ = J.s str ∧ tsShape str = true) := by
  induction col with
  | nil => exact ⟨[], rfl, rfl, fun i hi ho => absurd hi (by simp at hi)⟩
  | cons t ts ih =>
    obtain ⟨out, hout, hlen, hent⟩ := ih (fun u hu => hrange u (List.mem_cons_of_mem _ hu))
    by_cases ht0 : t = 0
    · subst ht0
      refine ⟨J.n 0 :: out, ?_, by simp [hlen], ?_⟩
      · simp [convertColumn, convertEntry, hout, bind, Option.bind_eq_bind']
      · intro i hi ho
        cases i with
        | zero => exact ⟨fun _ => rfl, fun hne => absurd rfl hne⟩
        | succ n =>
          exact hent n (by simpa using hi) (by simpa using ho)
    · have hr : -30610224000 ≤ t ∧ t ≤ 253402300799 := by
        rcases hrange t (List.mem_cons_self t ts) with rfl | h
        · exact absurd rfl ht0
        · exact h
      obtain ⟨str, hstr, hshape⟩ := convertEntry_shape t ht0 hr.1 hr.2
      refine ⟨J.s str :: out, ?_, by simp [hlen], ?_⟩
      · simp [convertColumn, hstr, hout, bind, Option.bind_eq_bind']
      · intro i hi ho
        cases i with
        | zero => exact ⟨fun h => absurd h ht0, fun _ => ⟨str, rfl, hshape⟩⟩
        | succ n =>
          exact hent n (by simpa using hi) (by simpa using ho)

/-- Witness for the amended C6 on a concrete column holding a zero and
a present-day epoch. -/
theorem c6_timestamp_format_witness :
    ∃ out, convertColumn [0, 1621261984] = some out ∧
      out.length = ([0, 1621261984] : List Int).length ∧
      ∀ i (hi : i < ([0, 1621261984] : List Int).length) (ho : i < out.length),
        (([0, 1621261984] : List Int).get ⟨i, hi⟩ = 0 → out.get ⟨i, ho⟩ = J.n 0) ∧
        (¬ ([0, 1621261984] : List Int).get ⟨i, hi⟩ = 0 →
          ∃ str, out.get ⟨i, ho⟩ = J.s str ∧ tsShape str = true) :=
  c6_timestamp_format [0, 1621261984] (by decide)
